import Mathlib

/-!
Verification development for the text-rendering subsystem of zenity-rs
(src/render/text.rs). The Rust code is shallowly embedded below:

* fonts (`ab_glyph::PxScaleFont`) are modelled abstractly as `GFont`, a
  bundle of the query functions the renderer uses, with all metrics given
  at the one pixel scale the renderer works at (the Rust `Font` bakes its
  `px_scale` into every metric query in exactly the same way);
* `f32` arithmetic is modelled over `ℚ`, with `f32::round`
  (round half away from zero) modelled by `rround`;
* the process-wide fallback cache (`FALLBACK_CACHE`) is modelled by
  explicit state passing: every function that reads or mutates the cache
  takes the cache as an argument and returns the updated cache;
* file reads are modelled by a fixed list `files : List (Option GFont)`
  indexed like the discovered candidate list (`SYSTEM_FONTS`); `none`
  means the read-plus-parse of that candidate fails.  The slow path of
  `find_fallback_for_char` additionally returns the list of indices whose
  file it read, as ghost instrumentation used to state cache claims.
-/

set_option maxHeartbeats 1000000

namespace ZenityRs

/-- Pixel-space rectangle (ab_glyph `Rect` with `min`/`max` points). -/
structure GRect where
  minX : ℚ
  minY : ℚ
  maxX : ℚ
  maxY : ℚ
deriving DecidableEq, Repr

/-- Union step used by the `reduce` in `measure`/`finish`. -/
def rectUnion (a b : GRect) : GRect :=
  ⟨min a.minX b.minX, min a.minY b.minY, max a.maxX b.maxX, max a.maxY b.maxY⟩

/-- Raster glyph image metadata (ab_glyph `v2::GlyphImage`): format tag,
whether `Pixmap::decode_png` succeeds on its data, dimensions, and origin. -/
structure GImage where
  isPng : Bool
  decodes : Bool
  width : Nat
  height : Nat
  pixelsPerEm : ℚ
  originX : ℚ
  originY : ℚ

/-- An abstract scaled font: the queries text.rs performs on a
`PxScaleFont`/`FontArc`, all at the renderer's fixed pixel scale.
`glyphId c = 0` is the notdef glyph (the Rust code tests
`glyph_id(c).0 != 0`).  `outlineOf` gives the `px_bounds` of
`outline_glyph` relative to the glyph position (`none` when the glyph has
no outline), and `rasterOf` gives `glyph_raster_image2` at the
renderer's ppem. -/
structure GFont where
  glyphId : Char → Nat
  hAdvance : Nat → ℚ
  kern : Nat → Nat → ℚ
  height : ℚ
  lineGap : ℚ
  ascent : ℚ
  outlineOf : Nat → Option GRect
  rasterOf : Nat → Option GImage

/-- The `Font` struct: primary scaled typeface, optional emoji typeface,
and the pixel scale (used by `resolve_glyphs` for raster scaling). -/
structure Font where
  primary : GFont
  emoji : Option GFont
  pxScale : ℚ

/-- A fallback-cache slot (`CachedFont` in text.rs). -/
structure CachedFont where
  font : Option GFont
  load_failed : Bool

/-- `f32::round`: round half away from zero, as a `ℚ → ℚ` map whose value
is always an integer. -/
def rround (q : ℚ) : ℚ :=
  if 0 ≤ q then ((⌊q + 1/2⌋ : ℤ) : ℚ) else ((-⌊-q + 1/2⌋ : ℤ) : ℚ)

/-- A rational that is an integer. -/
def IsIntQ (q : ℚ) : Prop := ∃ z : ℤ, q = (z : ℚ)

/-- The zero-width-space character used as a soft-break opportunity. -/
def ZWSP : Char := Char.ofNat 0x200B

/-- Initial fallback cache built by `ensure_fallback_cache`: one
empty, unfailed slot per discovered candidate. -/
def ensure_fallback_cache (files : List (Option GFont)) : List CachedFont :=
  files.map (fun _ => { font := none, load_failed := false })

/-- Fast path of `find_fallback_for_char`: first cache slot (in candidate
order) holding a retained font whose character map has `c`. -/
def fastPath (cache : List CachedFont) (c : Char) : Option GFont :=
  cache.findSome? (fun e =>
    match e.font with
    | some f => if f.glyphId c ≠ 0 then some f else none
    | none => none)

/-- Slow path of `find_fallback_for_char`: walk the not-yet-resolved,
not-failed slots in candidate order; read and parse `files[i]`; on parse
failure set `load_failed`; on success retain the font iff it has `c`.
`i` is the absolute index of the first slot of `cache` (the cache slots
are index-aligned with the candidate list; an out-of-range index, which
cannot occur in the program where the two lists always have equal length,
reads as a failure).  Returns (result, updated cache slots, indices whose
file was read). -/
def slowGo (files : List (Option GFont)) (c : Char) :
    Nat → List CachedFont → Option GFont × List CachedFont × List Nat
  | _, [] => (none, [], [])
  | i, e :: rest =>
    if e.font.isSome || e.load_failed then
      let r := slowGo files c (i + 1) rest
      (r.1, e :: r.2.1, r.2.2)
    else
      match (files[i]?).getD none with
      | some font =>
        if font.glyphId c ≠ 0 then
          (some font, { e with font := some font } :: rest, [i])
        else
          let r := slowGo files c (i + 1) rest
          (r.1, e :: r.2.1, i :: r.2.2)
      | none =>
        let r := slowGo files c (i + 1) rest
        (r.1, { e with load_failed := true } :: r.2.1, i :: r.2.2)

/-- `find_fallback_for_char`: fast path over retained fonts, then the
slow loading path.  State-passing version of the mutex-guarded global
cache; the third component is the ghost list of file indices read. -/
def find_fallback_for_char (files : List (Option GFont))
    (cache : List CachedFont) (c : Char) :
    Option GFont × List CachedFont × List Nat :=
  match fastPath cache c with
  | some f => (some f, cache, [])
  | none => slowGo files c 0 cache

/-- A placed glyph from `layout`: glyph id, position, and the fallback
font that resolved it (`none` means the primary font). -/
structure PlacedGlyph where
  id : Nat
  x : ℚ
  y : ℚ
  fallback : Option GFont

/-- Per-character font resolution in `layout`: primary, then emoji, then
system fallback, then the primary notdef id. -/
def resolveChar (fp : Font) (files : List (Option GFont))
    (cache : List CachedFont) (c : Char) :
    (Nat × Option GFont) × List CachedFont :=
  let pid := fp.primary.glyphId c
  if pid ≠ 0 then
    ((pid, none), cache)
  else
    match fp.emoji with
    | some ef =>
      if ef.glyphId c ≠ 0 then
        ((ef.glyphId c, some ef), cache)
      else
        match find_fallback_for_char files cache c with
        | (some fb, cache2, _) => ((fb.glyphId c, some fb), cache2)
        | (none, cache2, _) => ((pid, none), cache2)
    | none =>
      match find_fallback_for_char files cache c with
      | (some fb, cache2, _) => ((fb.glyphId c, some fb), cache2)
      | (none, cache2, _) => ((pid, none), cache2)

/-- `primary.height() + primary.line_gap()`, the per-line y advance. -/
def lineHeight (fp : Font) : ℚ := fp.primary.height + fp.primary.lineGap

/-- Per-line mutable state of `layout` (cursor, the glyphs of the current
line, the last soft-break index, the last primary glyph id, the y
cursor). -/
structure LineCore where
  x : ℚ
  glyphs : List PlacedGlyph
  softbreak : Option Nat
  lastPrimary : Option Nat
  y : ℚ

/-- One character step of `layout` after font resolution: kern (primary
glyphs only), build the glyph at the rounded cursor, advance, then either
record a break opportunity (space/ZWSP) or push the glyph and soft-wrap
on overflow.  `softbreak` holds the index relative to the current line's
glyph run; the Rust code records the absolute index into the vector
shared across lines, but a wrap only ever touches glyphs of the current
line, so the index translates by the line's start offset. -/
def stepCore (fp : Font) (maxW : ℚ) (core : LineCore) (c : Char)
    (gid : Nat) (fb : Option GFont) : LineCore :=
  let x1 :=
    match fb, core.lastPrimary with
    | none, some l => core.x + fp.primary.kern l gid
    | _, _ => core.x
  let g : PlacedGlyph := { id := gid, x := rround x1, y := rround core.y, fallback := fb }
  let adv :=
    match fb with
    | some f => f.hAdvance gid
    | none => fp.primary.hAdvance gid
  let lp : Option Nat :=
    match fb with
    | none => some gid
    | some _ => none
  let x2 := x1 + adv
  if c = ' ' ∨ c = ZWSP then
    { core with x := x2, softbreak := some core.glyphs.length, lastPrimary := lp }
  else
    let gs := core.glyphs ++ [g]
    if maxW < x2 then
      match core.softbreak with
      | some i =>
        let y2 := core.y + lineHeight fp
        let xdiff :=
          match gs[i]? with
          | some g0 => g0.x
          | none => 0
        let gs2 := gs.take i ++ (gs.drop i).map (fun pg => { pg with x := pg.x - xdiff, y := y2 })
        { x := x2 - xdiff, glyphs := gs2, softbreak := none, lastPrimary := lp, y := y2 }
      | none => { core with x := x2, glyphs := gs, lastPrimary := lp }
    else
      { core with x := x2, glyphs := gs, lastPrimary := lp }

/-- One character step of `layout` including font resolution and cache
threading. -/
def stepChar (fp : Font) (files : List (Option GFont)) (maxW : ℚ)
    (st : LineCore × List CachedFont) (c : Char) : LineCore × List CachedFont :=
  let r := resolveChar fp files st.2 c
  (stepCore fp maxW st.1 c r.1.1 r.1.2, r.2)

/-- Process one input line starting at y cursor `y0`. -/
def runLine (fp : Font) (files : List (Option GFont)) (maxW : ℚ)
    (y0 : ℚ) (cache : List CachedFont) (line : List Char) :
    LineCore × List CachedFont :=
  line.foldl (stepChar fp files maxW)
    ({ x := 0, glyphs := [], softbreak := none, lastPrimary := none, y := y0 }, cache)

/-- Process the split lines in order; after each line the y cursor
advances by one line height from wherever the line left it. -/
def layoutLines (fp : Font) (files : List (Option GFont)) (maxW : ℚ) :
    ℚ → List CachedFont → List (List Char) → List (List PlacedGlyph) × List CachedFont
  | _, cache, [] => ([], cache)
  | y, cache, line :: rest =>
    let st := runLine fp files maxW y cache line
    let r := layoutLines fp files maxW (st.1.y + lineHeight fp) st.2 rest
    (st.1.glyphs :: r.1, r.2)

/-- Strip one trailing carriage return (Rust `str::lines` removes a `\r`
that immediately precedes the `\n`). -/
def stripCr (l : List Char) : List Char :=
  if l.getLast? = some '\x0d' then l.dropLast else l

/-- Worker for `linesOf`: `acc` is the current line so far. -/
def linesGo : List Char → List Char → List (List Char)
  | [], acc => if acc.isEmpty then [] else [acc]
  | c :: rest, acc =>
    if c = '\n' then stripCr acc :: linesGo rest [] else linesGo rest (acc ++ [c])

/-- Rust `str::lines`: split on `'\n'` (stripping a preceding `'\r'`),
with no trailing empty line for a trailing terminator and no line at all
for the empty string. -/
def linesOf (s : List Char) : List (List Char) := linesGo s []

/-- `TextRenderer::layout`: the placed glyphs of all lines, plus the
cache state after all fallback lookups. -/
def layout (fp : Font) (files : List (Option GFont)) (maxW : ℚ)
    (cache : List CachedFont) (text : List Char) :
    List PlacedGlyph × List CachedFont :=
  let r := layoutLines fp files maxW 0 cache (linesOf text)
  (r.1.flatten, r.2)

/-- A rendered glyph: vector outline (carrying its `px_bounds`) or a
scaled raster bitmap with its placement; only the data `finish`/`measure`
consult is kept. -/
inductive RenderedGlyph where
  | outlined (b : GRect)
  | raster (w h : ℚ) (x y : ℚ)
deriving DecidableEq

/-- `RenderedGlyph::bounds`. -/
def RenderedGlyph.bbox : RenderedGlyph → GRect
  | .outlined b => b
  | .raster w h x y => ⟨x, y, x + w, y + h⟩

/-- The font a placed glyph resolves against (`pg.fallback` or the
primary font). -/
def glyphFont (fp : Font) (pg : PlacedGlyph) : GFont :=
  pg.fallback.getD fp.primary

/-- One glyph of `resolve_glyphs`: try the vector outline, else a PNG
raster image scaled from its native ppem to the active scale; anything
else is dropped. -/
def resolveGlyph (fp : Font) (pg : PlacedGlyph) : Option RenderedGlyph :=
  match (glyphFont fp pg).outlineOf pg.id with
  | some rel =>
    some (RenderedGlyph.outlined
      ⟨pg.x + rel.minX, pg.y + rel.minY, pg.x + rel.maxX, pg.y + rel.maxY⟩)
  | none =>
    match (glyphFont fp pg).rasterOf pg.id with
    | some img =>
      if img.isPng && img.decodes then
        let scale := fp.pxScale / img.pixelsPerEm
        let tw := max (rround ((img.width : ℚ) * scale)) 1
        let th := max (rround ((img.height : ℚ) * scale)) 1
        let rx := pg.x + img.originX * scale
        let ry := pg.y - (glyphFont fp pg).ascent + img.originY * scale
        some (RenderedGlyph.raster tw th rx ry)
      else none
    | none => none

/-- `TextRenderer::resolve_glyphs`. -/
def resolve_glyphs (fp : Font) (pgs : List PlacedGlyph) : List RenderedGlyph :=
  pgs.filterMap (resolveGlyph fp)

/-- The `reduce(rectUnion).unwrap_or_default()` over the glyph bounds. -/
def unionBounds (gs : List RenderedGlyph) : GRect :=
  match gs.map RenderedGlyph.bbox with
  | [] => ⟨0, 0, 0, 0⟩
  | r :: rs => rs.foldl rectUnion r

/-- `TextRenderer::measure`: bounding-box width and height of the
resolved glyphs (with the cache state threaded through). -/
def measure (fp : Font) (files : List (Option GFont)) (maxW : ℚ)
    (cache : List CachedFont) (text : List Char) : (ℚ × ℚ) × List CachedFont :=
  let l := layout fp files maxW cache text
  let b := unionBounds (resolve_glyphs fp l.1)
  ((b.maxX - b.minX, b.maxY - b.minY), l.2)

/-- Canvas dimensions produced by `TextRenderer::finish` for a resolved
glyph list: 1×1 for an empty list, else `(ceil(bounds) + 2).max(1)` per
axis computed in `u32`: the `as u32` cast of the `f32` ceiling saturates
below at 0 (negative or NaN input, hence `Int.toNat`) and above at
`u32::MAX = 2^32 - 1` (hence the `min`), and the `+ 2` is wrapping
`u32` addition (release-mode semantics), hence the `% 2^32`; the
`.max(1)` follows the source.  Modelled from the spec: `Canvas::new`
(in the repository's render module, whose file is not part of src/) and
`Pixmap::new` allocate a buffer of exactly the requested dimensions. -/
def finish_size (gs : List RenderedGlyph) : Nat × Nat :=
  if gs.isEmpty then (1, 1)
  else
    let b := unionBounds gs
    (max ((min (b.maxX - b.minX).ceil.toNat (2 ^ 32 - 1) + 2) % 2 ^ 32) 1,
     max ((min (b.maxY - b.minY).ceil.toNat (2 ^ 32 - 1) + 2) % 2 ^ 32) 1)

/-- `TextRenderer::finish`, reduced to the dimensions of the canvas it
returns, with the cache state threaded through. -/
def finish_canvas_size (fp : Font) (files : List (Option GFont)) (maxW : ℚ)
    (cache : List CachedFont) (text : List Char) : (Nat × Nat) × List CachedFont :=
  let l := layout fp files maxW cache text
  (finish_size (resolve_glyphs fp l.1), l.2)

/-- A premultiplied RGBA pixel with channels normalised to `[0, 1]`. -/
structure Pix where
  r : ℚ
  g : ℚ
  b : ℚ
  a : ℚ
deriving DecidableEq, Repr

/-- Premultiplied source-over blending of one pixel. -/
def srcOverPix (s d : Pix) : Pix :=
  ⟨s.r + d.r * (1 - s.a), s.g + d.g * (1 - s.a),
   s.b + d.b * (1 - s.a), s.a + d.a * (1 - s.a)⟩

/-- Per-pixel effect of the `Raster` arm of `finish`: it calls
`tiny_skia::Pixmap::draw_pixmap` with `PixmapPaint::default()`, whose
blend mode is `BlendMode::SourceOver` (opacity 1.0, nearest filtering,
identity transform at an integer offset), i.e. premultiplied source-over
of each source pixel onto the destination pixel it covers. -/
def drawPixmapPixel (s d : Pix) : Pix := srcOverPix s d

/-- Does `s` start with `pat`? -/
def startsW : List Char → List Char → Bool
  | _, [] => true
  | [], _ :: _ => false
  | c :: s, p :: ps => c == p && startsW s ps

/-- Rust `str::contains` for literal patterns: does `s` contain `pat` as
a contiguous substring? -/
def hasSub : List Char → List Char → Bool
  | [], pat => pat.isEmpty
  | s@(_ :: rest), pat => startsW s pat || hasSub rest pat

/-- The variable-font / exotic-script test of `font_priority` (on the
lowercased stem). -/
def is_exotic (name : List Char) : Bool :=
  hasSub name "[".toList || hasSub name "]".toList ||
  hasSub name "adlam".toList || hasSub name "arabic".toList ||
  hasSub name "hebrew".toList || hasSub name "thai".toList ||
  hasSub name "cjk".toList || hasSub name "korean".toList ||
  hasSub name "japanese".toList || hasSub name "indic".toList ||
  hasSub name "syriac".toList || hasSub name "myanmar".toList ||
  hasSub name "ethiopic".toList

/-- The emoji/color/symbol test of `font_priority` (on the lowercased
stem). -/
def is_emoji (name : List Char) : Bool :=
  hasSub name "emoji".toList || hasSub name "color".toList ||
  hasSub name "symbol".toList || hasSub name "nerdfont".toList

/-- The style/weight-variant test of `font_priority` (on the lowercased
stem). -/
def is_variant (name : List Char) : Bool :=
  hasSub name "bold".toList || hasSub name "italic".toList ||
  hasSub name "oblique".toList || hasSub name "mono".toList ||
  hasSub name "condensed".toList || hasSub name "light".toList ||
  hasSub name "thin".toList || hasSub name "black".toList ||
  hasSub name "semibold".toList || hasSub name "extrabold".toList

/-- The sans-serif preference table of `font_priority` (on the lowercased
stem). -/
def base_score (name : List Char) : Nat :=
  if name = "notosans".toList ∨ name = "notosans-regular".toList then 1
  else if name = "dejavusans".toList then 2
  else if hasSub name "liberation".toList && hasSub name "sans".toList then 3
  else if hasSub name "ubuntu".toList && hasSub name "regular".toList then 4
  else if name = "cantarell".toList ∨ name = "cantarell-regular".toList then 5
  else if hasSub name "noto".toList && hasSub name "sans".toList then 6
  else if hasSub name "sans".toList then 10
  else 50

/-- `font_priority` of a filename stem: lowercase it, then score exotic
names 255, emoji/color/symbol names 8, and otherwise the preference-table
base plus 50 for style/weight variants. -/
def font_priority (stem : List Char) : Nat :=
  let name := stem.map Char.toLower
  if is_exotic name then 255
  else if is_emoji name then 8
  else if is_variant name then base_score name + 50
  else base_score name

/-- A character that the per-character resolution serves without
consulting the fallback cache: present in the primary font, or in the
emoji font. -/
def Covered (fp : Font) (c : Char) : Prop :=
  fp.primary.glyphId c ≠ 0 ∨ ∃ e, fp.emoji = some e ∧ e.glyphId c ≠ 0

/-- `a` lies inside `b`. -/
def subRect (a b : GRect) : Prop :=
  b.minX ≤ a.minX ∧ b.minY ≤ a.minY ∧ a.maxX ≤ b.maxX ∧ a.maxY ≤ b.maxY

/-- The fallback-cache slot invariant: a slot whose load failed holds no
font. -/
def CacheInv (cache : List CachedFont) : Prop :=
  ∀ e ∈ cache, e.load_failed = true → e.font = none

/-- Test font containing every character (glyph id = code point), with
integral metrics and a fixed visible outline for every non-notdef glyph. -/
def fontNum : GFont where
  glyphId := fun c => c.toNat
  hAdvance := fun _ => 10
  kern := fun _ _ => 0
  height := 12
  lineGap := 2
  ascent := 9
  outlineOf := fun g => if g = 0 then none else some ⟨0, -8, 6, 0⟩
  rasterOf := fun _ => none

/-- Test font containing every character (constant glyph id 1) whose
line height is the non-integral 15/2. -/
def fontHalf : GFont where
  glyphId := fun _ => 1
  hAdvance := fun _ => 10
  kern := fun _ _ => 0
  height := 15/2
  lineGap := 0
  ascent := 6
  outlineOf := fun _ => some ⟨0, -6, 6, 0⟩
  rasterOf := fun _ => none

/-- Test font containing no character at all. -/
def fontNone : GFont where
  glyphId := fun _ => 0
  hAdvance := fun _ => 4
  kern := fun _ _ => 0
  height := 10
  lineGap := 0
  ascent := 8
  outlineOf := fun _ => none
  rasterOf := fun _ => none

/-- Fallback candidate covering `q` and `w`, 5px wide glyphs. -/
def fontA : GFont where
  glyphId := fun c => if c = 'q' ∨ c = 'w' then 1 else 0
  hAdvance := fun _ => 5
  kern := fun _ _ => 0
  height := 10
  lineGap := 0
  ascent := 8
  outlineOf := fun g => if g = 1 then some ⟨0, -5, 5, 0⟩ else none
  rasterOf := fun _ => none

/-- Fallback candidate covering `q` and `z`, 9px wide glyphs. -/
def fontB : GFont where
  glyphId := fun c => if c = 'q' ∨ c = 'z' then 2 else 0
  hAdvance := fun _ => 9
  kern := fun _ _ => 0
  height := 10
  lineGap := 0
  ascent := 8
  outlineOf := fun g => if g = 2 then some ⟨0, -9, 9, 0⟩ else none
  rasterOf := fun _ => none

/-- Renderer whose primary font is `fontNum`. -/
def fpNum : Font := { primary := fontNum, emoji := none, pxScale := 18 }

/-- Renderer whose primary font is `fontHalf`. -/
def fpHalf : Font := { primary := fontHalf, emoji := none, pxScale := 18 }

/-- Renderer whose primary font contains nothing. -/
def fpNone : Font := { primary := fontNone, emoji := none, pxScale := 18 }

/-- Candidate list holding `fontA` then `fontB`. -/
def filesAB : List (Option GFont) := [some fontA, some fontB]

/-- Cold cache for `filesAB`. -/
def cacheAB : List CachedFont := ensure_fallback_cache filesAB

/-- Cache for `filesAB` after a lookup of `z` retained `fontB`. -/
def warmAB : List CachedFont := (find_fallback_for_char filesAB cacheAB 'z').2.1

lemma startsW_nil (s : List Char) : startsW s [] = true := by
  cases s <;> rfl

lemma startsW_append (pat t : List Char) : startsW (pat ++ t) pat = true := by
  induction pat with
  | nil => exact startsW_nil t
  | cons p ps ih => simp [startsW, ih]

lemma hasSub_suffix (s pat : List Char) : hasSub (s ++ pat) pat = true := by
  induction s with
  | nil =>
    cases pat with
    | nil => rfl
    | cons p ps =>
      have h := startsW_append (p :: ps) []
      rw [List.append_nil] at h
      simp [hasSub, h]
  | cons c s ih => simp [hasSub, ih]

lemma base_score_pos (name : List Char) : 1 ≤ base_score name := by
  unfold base_score
  split_ifs <;> omega

lemma base_score_le (name : List Char) : base_score name ≤ 50 := by
  unfold base_score
  split_ifs <;> omega

lemma font_priority_variant (stem : List Char)
    (hx : is_exotic (stem.map Char.toLower) = false)
    (hm : is_emoji (stem.map Char.toLower) = false)
    (hv : is_variant (stem.map Char.toLower) = true) :
    font_priority stem = base_score (stem.map Char.toLower) + 50 := by
  simp [font_priority, hx, hm, hv]

lemma font_priority_plain (stem : List Char)
    (hx : is_exotic (stem.map Char.toLower) = false)
    (hm : is_emoji (stem.map Char.toLower) = false)
    (hv : is_variant (stem.map Char.toLower) = false) :
    font_priority stem = base_score (stem.map Char.toLower) := by
  simp [font_priority, hx, hm, hv]

/-- C8 (amended): for stems that are neither exotic nor emoji the score
is the preference-table base plus 50 exactly for style/weight variants;
keyword-free preferred sans-serif stems sort strictly before keyword-free
generic stems; appending "bold" to a keyword-free stem strictly increases
its score provided the extended stem is still neither exotic nor
emoji/color/symbol; exotic stems always score 255 and emoji stems always
score 8, with no +50 applied. -/
theorem c8_priority_scoring :
    (∀ s : List Char, is_exotic (s.map Char.toLower) = false →
      is_emoji (s.map Char.toLower) = false →
      font_priority s = base_score (s.map Char.toLower) +
        (if is_variant (s.map Char.toLower) then 50 else 0)) ∧
    (∀ s t : List Char,
      is_exotic (s.map Char.toLower) = false → is_emoji (s.map Char.toLower) = false →
      is_variant (s.map Char.toLower) = false →
      is_exotic (t.map Char.toLower) = false → is_emoji (t.map Char.toLower) = false →
      is_variant (t.map Char.toLower) = false →
      base_score (s.map Char.toLower) < 50 → base_score (t.map Char.toLower) = 50 →
      font_priority s < font_priority t) ∧
    (∀ s : List Char,
      is_exotic (s.map Char.toLower) = false → is_emoji (s.map Char.toLower) = false →
      is_variant (s.map Char.toLower) = false →
      is_exotic ((s ++ "bold".toList).map Char.toLower) = false →
      is_emoji ((s ++ "bold".toList).map Char.toLower) = false →
      font_priority s < font_priority (s ++ "bold".toList)) ∧
    (∀ s : List Char, is_exotic (s.map Char.toLower) = true → font_priority s = 255) ∧
    (∀ s : List Char, is_exotic (s.map Char.toLower) = false →
      is_emoji (s.map Char.toLower) = true → font_priority s = 8) := by
  refine ⟨?_, ?_, ?_, ?_, ?_⟩
  · intro s hx hm
    cases hv : is_variant (s.map Char.toLower) with
    | false => rw [font_priority_plain s hx hm hv]; simp
    | true => rw [font_priority_variant s hx hm hv]; simp
  · intro s t hxs hms hvs hxt hmt hvt hbs hbt
    rw [font_priority_plain s hxs hms hvs, font_priority_plain t hxt hmt hvt]
    omega
  · intro s hx hm hv hxb hmb
    have hmap : (s ++ "bold".toList).map Char.toLower =
        s.map Char.toLower ++ "bold".toList := by
      rw [List.map_append]
      rfl
    have hvb : is_variant ((s ++ "bold".toList).map Char.toLower) = true := by
      rw [hmap]
      simp [is_variant, hasSub_suffix]
    rw [font_priority_plain s hx hm hv,
      font_priority_variant (s ++ "bold".toList) hxb hmb hvb]
    have h1 := base_score_pos ((s ++ "bold".toList).map Char.toLower)
    have h2 := base_score_le (s.map Char.toLower)
    omega
  · intro s hx
    simp [font_priority, hx]
  · intro s hx hm
    simp [font_priority, hx, hm]

/-- C8 witness: the amended bold clause at a concrete preferred
sans-serif stem. -/
theorem c8_witness :
    font_priority "notosans".toList <
      font_priority ("notosans".toList ++ "bold".toList) :=
  c8_priority_scoring.2.2.1 "notosans".toList
    (by decide) (by decide) (by decide) (by decide) (by decide)

/-- C8 counterexample: the stem "sym" is keyword-free, non-exotic and
non-emoji with the generic base score 50, yet appending "bold" yields
"symbold", which contains "symbol" and is scored 8 — the score strictly
decreases instead of increasing. -/
theorem c8_counterexample :
    is_exotic ("sym".toList.map Char.toLower) = false ∧
    is_emoji ("sym".toList.map Char.toLower) = false ∧
    is_variant ("sym".toList.map Char.toLower) = false ∧
    base_score ("sym".toList.map Char.toLower) = 50 ∧
    font_priority "sym".toList = 50 ∧
    font_priority ("sym".toList ++ "bold".toList) = 8 ∧
    ¬ font_priority "sym".toList <
        font_priority ("sym".toList ++ "bold".toList) := by
  decide

/-- C3 (amended): the `Raster` arm of `finish` composites each covered
pixel with premultiplied source-over blending (the behaviour of
`draw_pixmap` under `PixmapPaint::default()`); the destination pixel
becomes exactly the source pixel precisely in the special cases of an
opaque source pixel or a fully transparent destination pixel — not
unconditionally. -/
theorem c3_raster_source_over :
    ∀ s d : Pix,
      drawPixmapPixel s d = srcOverPix s d ∧
      (s.a = 1 → drawPixmapPixel s d = s) ∧
      (d = ⟨0, 0, 0, 0⟩ → drawPixmapPixel s d = s) := by
  intro s d
  refine ⟨rfl, ?_, ?_⟩
  · intro h
    cases s
    cases d
    simp_all [drawPixmapPixel, srcOverPix]
  · intro h
    cases s
    subst h
    simp [drawPixmapPixel, srcOverPix]

/-- C3 witness: an opaque source pixel does overwrite. -/
theorem c3_witness :
    drawPixmapPixel ⟨1, 0, 0, 1⟩ ⟨0, 1, 0, 1⟩ = ⟨1, 0, 0, 1⟩ :=
  (c3_raster_source_over ⟨1, 0, 0, 1⟩ ⟨0, 1, 0, 1⟩).2.1 rfl

/-- C3 counterexample: a transparent source pixel over an opaque red
destination leaves the destination, so the destination does not become
"exactly the source pixel". -/
theorem c3_counterexample :
    drawPixmapPixel ⟨0, 0, 0, 0⟩ ⟨1, 0, 0, 1⟩ ≠ ⟨0, 0, 0, 0⟩ := by
  norm_num [drawPixmapPixel, srcOverPix, Pix.mk.injEq]

/-- C9 (amended): `finish` returns a 1×1 canvas for the empty resolved
glyph sequence, and — as long as the bounding-box dimensions stay below
the `u32` wrap threshold (ceiling below `2^32 - 2`) — only for it: the
bounding-box path then produces at least 2 pixels per axis.  Without
that proviso the equivalence fails: a non-empty sequence whose width and
height ceilings reach the threshold saturates the `f32 → u32` cast and
the wrapping `+ 2` brings the dimension back to 1 (see the
counterexample).  Rendering the empty string always yields a 1×1
canvas. -/
theorem c9_empty_iff_unit_canvas :
    (∀ gs : List RenderedGlyph,
      ((unionBounds gs).maxX - (unionBounds gs).minX).ceil.toNat < 2 ^ 32 - 2 →
      ((unionBounds gs).maxY - (unionBounds gs).minY).ceil.toNat < 2 ^ 32 - 2 →
      (finish_size gs = (1, 1) ↔ gs = [])) ∧
    (∀ (fp : Font) (files : List (Option GFont)) (maxW : ℚ) (cache : List CachedFont),
      finish_canvas_size fp files maxW cache [] = ((1, 1), cache)) := by
  constructor
  · intro gs hw hh
    constructor
    · intro h
      cases gs with
      | nil => rfl
      | cons g t =>
        exfalso
        simp only [finish_size, List.isEmpty_cons, if_false, Bool.false_eq_true] at h
        have h1 := congrArg Prod.fst h
        simp only at h1
        set cx := ((unionBounds (g :: t)).maxX - (unionBounds (g :: t)).minX).ceil.toNat
          with hcx
        have hmin : min cx (2 ^ 32 - 1) = cx := min_eq_left (by omega)
        have hmod : (cx + 2) % 2 ^ 32 = cx + 2 := Nat.mod_eq_of_lt (by omega)
        rw [hmin, hmod] at h1
        have hle := Nat.le_max_left (cx + 2) 1
        omega
    · intro h
      subst h
      rfl
  · intro fp files maxW cache
    rfl

/-- C9 witness: the empty glyph list (whose bounding box is the zero
rectangle, far below the wrap threshold) gives the degenerate canvas. -/
theorem c9_witness : finish_size [] = (1, 1) :=
  (c9_empty_iff_unit_canvas.1 [] (by norm_num [unionBounds]; decide)
    (by norm_num [unionBounds]; decide)).mpr rfl

/-- C9 counterexample: a single glyph whose bounding box is 2^32 wide and
tall saturates the `f32 → u32` cast at `u32::MAX = 2^32 - 1`; the
wrapping `+ 2` then gives 1 per axis, so `finish` returns a 1×1 canvas
for a non-empty resolved sequence, refuting the unconditional
equivalence. -/
theorem c9_counterexample :
    finish_size [RenderedGlyph.outlined ⟨0, 0, 4294967296, 4294967296⟩] = (1, 1) ∧
    [RenderedGlyph.outlined ⟨0, 0, 4294967296, 4294967296⟩] ≠
      ([] : List RenderedGlyph) := by
  constructor
  · have hceil : ((4294967296 : ℚ) - 0).ceil.toNat = 4294967296 := by
      rw [sub_zero]
      decide
    have hexp : finish_size [RenderedGlyph.outlined ⟨0, 0, 4294967296, 4294967296⟩] =
        (max ((min ((4294967296 : ℚ) - 0).ceil.toNat (2 ^ 32 - 1) + 2) % 2 ^ 32) 1,
         max ((min ((4294967296 : ℚ) - 0).ceil.toNat (2 ^ 32 - 1) + 2) % 2 ^ 32) 1) :=
      rfl
    rw [hexp, hceil]
    decide
  · simp

lemma slowGo_length (files : List (Option GFont)) (c : Char) :
    ∀ (cache : List CachedFont) (i : Nat),
      ((slowGo files c i cache).2.1).length = cache.length := by
  intro cache
  induction cache with
  | nil => intro i; rfl
  | cons e rest ih =>
    intro i
    simp only [slowGo]
    split
    · simp [ih]
    · split
      · split
        · simp
        · simp [ih]
      · simp [ih]

lemma slowGo_reads_ge (files : List (Option GFont)) (c : Char) :
    ∀ (cache : List CachedFont) (i k : Nat),
      k ∈ (slowGo files c i cache).2.2 → i ≤ k := by
  intro cache
  induction cache with
  | nil => intro i k h; simp [slowGo] at h
  | cons e rest ih =>
    intro i k
    simp only [slowGo]
    split
    · intro h
      have := ih (i + 1) k h
      omega
    · split
      · split
        · intro h
          simp at h
          omega
        · intro h
          simp at h
          rcases h with h | h
          · omega
          · have := ih (i + 1) k h
            omega
      · intro h
        simp at h
        rcases h with h | h
        · omega
        · have := ih (i + 1) k h
          omega

lemma slowGo_inv (files : List (Option GFont)) (c : Char) :
    ∀ (cache : List CachedFont) (i : Nat), CacheInv cache →
      CacheInv (slowGo files c i cache).2.1 := by
  intro cache
  induction cache with
  | nil => intro i h; exact h
  | cons e rest ih =>
    intro i hinv
    have hrest : CacheInv rest := fun e2 h2 => hinv e2 (List.mem_cons_of_mem _ h2)
    have hhead := hinv e (List.mem_cons_self _ _)
    simp only [slowGo]
    split
    · intro e2 h2 hf
      rcases List.mem_cons.1 h2 with h | h
      · subst h; exact hhead hf
      · exact ih (i + 1) hrest e2 h hf
    · next hcond =>
      simp only [Bool.not_eq_true, Bool.or_eq_false_iff] at hcond
      have hfont : e.font = none :=
        Option.not_isSome_iff_eq_none.1 (by simp [hcond.1])
      split
      · split
        · intro e2 h2 hf2
          rcases List.mem_cons.1 h2 with h | h
          · subst h
            have h3 : e.load_failed = true := by simpa using hf2
            rw [hcond.2] at h3
            cases h3
          · exact hrest e2 h hf2
        · intro e2 h2 hf2
          rcases List.mem_cons.1 h2 with h | h
          · subst h; exact hhead hf2
          · exact ih (i + 1) hrest e2 h hf2
      · intro e2 h2 hf2
        rcases List.mem_cons.1 h2 with h | h
        · subst h
          simpa using hfont
        · exact ih (i + 1) hrest e2 h hf2

lemma slowGo_failed_slot (files : List (Option GFont)) (c : Char) :
    ∀ (cache : List CachedFont) (i j : Nat) (e : CachedFont),
      cache[j]? = some e → e.load_failed = true →
      (i + j) ∉ (slowGo files c i cache).2.2 ∧
      ((slowGo files c i cache).2.1)[j]? = some e := by
  intro cache
  induction cache with
  | nil => intro i j e hj; simp at hj
  | cons e0 rest ih =>
    intro i j e hj hf
    cases j with
    | zero =>
      rw [List.getElem?_cons_zero] at hj
      injection hj with hj
      have hcond : (e0.font.isSome || e0.load_failed) = true := by
        rw [hj, hf]
        simp
      simp only [slowGo]
      rw [if_pos hcond]
      constructor
      · intro hmem
        have := slowGo_reads_ge files c rest (i + 1) (i + 0) hmem
        omega
      · rw [List.getElem?_cons_zero]
        exact congrArg some hj
    | succ j =>
      rw [List.getElem?_cons_succ] at hj
      have harith : i + (j + 1) = (i + 1) + j := by omega
      simp only [slowGo]
      split
      · rcases ih (i + 1) j e hj hf with ⟨hr, hc⟩
        refine ⟨by rw [harith]; exact hr, ?_⟩
        rw [List.getElem?_cons_succ]
        exact hc
      · split
        · split
          · refine ⟨by simp only [List.mem_singleton]; omega, ?_⟩
            rw [List.getElem?_cons_succ]
            exact hj
          · rcases ih (i + 1) j e hj hf with ⟨hr, hc⟩
            refine ⟨?_, by rw [List.getElem?_cons_succ]; exact hc⟩
            simp only [List.mem_cons]
            rintro (h | h)
            · omega
            · rw [harith] at h
              exact hr h
        · rcases ih (i + 1) j e hj hf with ⟨hr, hc⟩
          refine ⟨?_, by rw [List.getElem?_cons_succ]; exact hc⟩
          simp only [List.mem_cons]
          rintro (h | h)
          · omega
          · rw [harith] at h
            exact hr h

lemma slowGo_some_glyph (files : List (Option GFont)) (c : Char) :
    ∀ (cache : List CachedFont) (i : Nat) (f : GFont),
      (slowGo files c i cache).1 = some f → f.glyphId c ≠ 0 := by
  intro cache
  induction cache with
  | nil => intro i f h; simp [slowGo] at h
  | cons e rest ih =>
    intro i f
    simp only [slowGo]
    split
    · exact ih (i + 1) f
    · split
      · next font heq =>
        split
        · next hcond =>
          intro h
          have h2 : some font = some f := h
          injection h2 with h2
          rw [← h2]
          exact hcond
        · exact ih (i + 1) f
      · exact ih (i + 1) f

lemma fastPath_some (cache : List CachedFont) (c : Char) (f : GFont)
    (h : fastPath cache c = some f) : f.glyphId c ≠ 0 := by
  rcases List.exists_of_findSome?_eq_some h with ⟨e, he, hfe⟩
  cases hef : e.font with
  | none => rw [hef] at hfe; simp at hfe
  | some g =>
    rw [hef] at hfe
    have hfe2 : (if g.glyphId c ≠ 0 then some g else none) = some f := hfe
    by_cases hg : g.glyphId c ≠ 0
    · rw [if_pos hg] at hfe2
      injection hfe2 with hfe2
      rw [← hfe2]
      exact hg
    · rw [if_neg hg] at hfe2
      exact absurd hfe2 (by simp)

lemma find_fallback_glyph (files : List (Option GFont))
    (cache : List CachedFont) (c : Char) (f : GFont)
    (h : (find_fallback_for_char files cache c).1 = some f) : f.glyphId c ≠ 0 := by
  unfold find_fallback_for_char at h
  cases hfp : fastPath cache c with
  | some g =>
    rw [hfp] at h
    have h2 : some g = some f := h
    injection h2 with h2
    rw [← h2]
    exact fastPath_some cache c g hfp
  | none =>
    rw [hfp] at h
    exact slowGo_some_glyph files c cache 0 f h

lemma slowGo_retains (files : List (Option GFont)) (c : Char) :
    ∀ (cache : List CachedFont) (i : Nat) (f : GFont),
      (slowGo files c i cache).1 = some f →
      ∃ (j : Nat) (e : CachedFont), ((slowGo files c i cache).2.1)[j]? = some e ∧ e.font = some f := by
  intro cache
  induction cache with
  | nil => intro i f h; simp [slowGo] at h
  | cons e0 rest ih =>
    intro i f
    simp only [slowGo]
    split
    · intro h
      rcases ih (i + 1) f h with ⟨j, e, hj, he⟩
      refine ⟨j + 1, e, ?_, he⟩
      show (e0 :: (slowGo files c (i + 1) rest).2.1)[j + 1]? = some e
      rw [List.getElem?_cons_succ]
      exact hj
    · split
      · next font heq =>
        split
        · intro h
          have h2 : some font = some f := h
          injection h2 with h2
          refine ⟨0, { e0 with font := some font }, ?_, ?_⟩
          · show ({ e0 with font := some font } :: rest)[0]? = _
            exact List.getElem?_cons_zero
          · show some font = some f
            rw [h2]
        · intro h
          rcases ih (i + 1) f h with ⟨j, e, hj, he⟩
          refine ⟨j + 1, e, ?_, he⟩
          show (e0 :: (slowGo files c (i + 1) rest).2.1)[j + 1]? = some e
          rw [List.getElem?_cons_succ]
          exact hj
      · intro h
        rcases ih (i + 1) f h with ⟨j, e, hj, he⟩
        refine ⟨j + 1, e, ?_, he⟩
        show ({ e0 with load_failed := true } :: (slowGo files c (i + 1) rest).2.1)[j + 1]? = some e
        rw [List.getElem?_cons_succ]
        exact hj

lemma slowGo_retained_preserved (files : List (Option GFont)) (c : Char) :
    ∀ (cache : List CachedFont) (i j : Nat) (e : CachedFont) (f : GFont),
      cache[j]? = some e → e.font = some f →
      ∃ e2 : CachedFont, ((slowGo files c i cache).2.1)[j]? = some e2 ∧ e2.font = some f := by
  intro cache
  induction cache with
  | nil => intro i j e f hj; simp at hj
  | cons e0 rest ih =>
    intro i j e f hj hf
    cases j with
    | zero =>
      rw [List.getElem?_cons_zero] at hj
      injection hj with hj
      have hcond : (e0.font.isSome || e0.load_failed) = true := by
        rw [hj]
        simp [hf]
      simp only [slowGo]
      rw [if_pos hcond]
      refine ⟨e0, ?_, by rw [hj]; exact hf⟩
      show (e0 :: (slowGo files c (i + 1) rest).2.1)[0]? = some e0
      exact List.getElem?_cons_zero
    | succ j =>
      rw [List.getElem?_cons_succ] at hj
      simp only [slowGo]
      split
      · rcases ih (i + 1) j e f hj hf with ⟨e2, h2, hf2⟩
        refine ⟨e2, ?_, hf2⟩
        show (e0 :: (slowGo files c (i + 1) rest).2.1)[j + 1]? = some e2
        rw [List.getElem?_cons_succ]
        exact h2
      · split
        · next font heq =>
          split
          · refine ⟨e, ?_, hf⟩
            show ({ e0 with font := some font } :: rest)[j + 1]? = some e
            rw [List.getElem?_cons_succ]
            exact hj
          · rcases ih (i + 1) j e f hj hf with ⟨e2, h2, hf2⟩
            refine ⟨e2, ?_, hf2⟩
            show (e0 :: (slowGo files c (i + 1) rest).2.1)[j + 1]? = some e2
            rw [List.getElem?_cons_succ]
            exact h2
        · rcases ih (i + 1) j e f hj hf with ⟨e2, h2, hf2⟩
          refine ⟨e2, ?_, hf2⟩
          show ({ e0 with load_failed := true } :: (slowGo files c (i + 1) rest).2.1)[j + 1]? = some e2
          rw [List.getElem?_cons_succ]
          exact h2

lemma fastPath_isSome_of_retained (cache : List CachedFont) (c : Char)
    (j : Nat) (e : CachedFont) (f : GFont)
    (hj : cache[j]? = some e) (hf : e.font = some f) (hg : f.glyphId c ≠ 0) :
    fastPath cache c ≠ none := by
  intro hnone
  have hmem : e ∈ cache := by
    have := List.getElem?_eq_some_iff.1 hj
    rcases this with ⟨hlt, hget⟩
    exact hget ▸ List.getElem_mem hlt
  have h1 := (List.findSome?_eq_none_iff.1 hnone) e hmem
  rw [hf] at h1
  have h2 : (if f.glyphId c ≠ 0 then some f else none) = none := h1
  rw [if_pos hg] at h2
  exact Option.some_ne_none f h2

/-- C6: the fallback cache keeps one slot per candidate (the initial
cache has the candidate list's length, all slots empty and unfailed, and
every `find_fallback_for_char` call preserves the length); a failed slot
holds no font, and this invariant is preserved by every call; and a
failed slot's file is never read again (its index is absent from the
reads performed) while the slot itself survives the call unchanged. -/
theorem c6_cache_invariants :
    (∀ files : List (Option GFont),
      (ensure_fallback_cache files).length = files.length ∧
      ∀ e ∈ ensure_fallback_cache files, e.font = none ∧ e.load_failed = false) ∧
    (∀ (files : List (Option GFont)) (cache : List CachedFont) (c : Char),
      ((find_fallback_for_char files cache c).2.1).length = cache.length) ∧
    (∀ (files : List (Option GFont)) (cache : List CachedFont) (c : Char),
      CacheInv cache → CacheInv ((find_fallback_for_char files cache c).2.1)) ∧
    (∀ (files : List (Option GFont)) (cache : List CachedFont) (c : Char)
      (j : Nat) (e : CachedFont),
      cache[j]? = some e → e.load_failed = true →
      j ∉ (find_fallback_for_char files cache c).2.2 ∧
      ((find_fallback_for_char files cache c).2.1)[j]? = some e) := by
  refine ⟨?_, ?_, ?_, ?_⟩
  · intro files
    constructor
    · simp [ensure_fallback_cache]
    · intro e he
      rcases List.mem_map.1 he with ⟨_, _, h⟩
      subst h
      exact ⟨rfl, rfl⟩
  · intro files cache c
    unfold find_fallback_for_char
    cases hfp : fastPath cache c with
    | some g => rfl
    | none => exact slowGo_length files c cache 0
  · intro files cache c hinv
    unfold find_fallback_for_char
    cases hfp : fastPath cache c with
    | some g => exact hinv
    | none => exact slowGo_inv files c cache 0 hinv
  · intro files cache c j e hj hf
    unfold find_fallback_for_char
    cases hfp : fastPath cache c with
    | some g => exact ⟨by simp, hj⟩
    | none =>
      have := slowGo_failed_slot files c cache 0 j e hj hf
      simpa using this

/-- C6 witness: a lookup over a cache whose only slot is failed performs
no read and leaves the slot unchanged. -/
theorem c6_witness :
    0 ∉ (find_fallback_for_char [some fontA]
          [{ font := none, load_failed := true }] 'q').2.2 ∧
    ((find_fallback_for_char [some fontA]
          [{ font := none, load_failed := true }] 'q').2.1)[0]? =
      some { font := none, load_failed := true } :=
  c6_cache_invariants.2.2.2 [some fontA]
    [{ font := none, load_failed := true }] 'q' 0
    { font := none, load_failed := true } rfl rfl

/-- C7: a successful fallback lookup retains the returned font in a
cache slot; retained slots survive every later lookup; and once a
retained font contains a character, a lookup for that character performs
no file read, leaves the cache unchanged, and is answered by the fast
path (the first retained font in candidate order whose character map has
the character). -/
theorem c7_fast_path_retention :
    (∀ (files : List (Option GFont)) (cache : List CachedFont) (c : Char) (f : GFont),
      (find_fallback_for_char files cache c).1 = some f →
      ∃ (j : Nat) (e : CachedFont), ((find_fallback_for_char files cache c).2.1)[j]? = some e ∧
        e.font = some f) ∧
    (∀ (files : List (Option GFont)) (cache : List CachedFont) (c : Char)
      (j : Nat) (e : CachedFont) (f : GFont),
      cache[j]? = some e → e.font = some f →
      ∃ e2 : CachedFont, ((find_fallback_for_char files cache c).2.1)[j]? = some e2 ∧
        e2.font = some f) ∧
    (∀ (files : List (Option GFont)) (cache : List CachedFont) (c2 : Char)
      (j : Nat) (e : CachedFont) (f : GFont),
      cache[j]? = some e → e.font = some f → f.glyphId c2 ≠ 0 →
      (find_fallback_for_char files cache c2).2.2 = [] ∧
      (find_fallback_for_char files cache c2).2.1 = cache ∧
      (find_fallback_for_char files cache c2).1 = fastPath cache c2 ∧
      ∃ g, fastPath cache c2 = some g ∧ g.glyphId c2 ≠ 0) := by
  refine ⟨?_, ?_, ?_⟩
  · intro files cache c f h
    cases hfp : fastPath cache c with
    | some g =>
      have hcall : find_fallback_for_char files cache c = (some g, cache, []) := by
        unfold find_fallback_for_char
        rw [hfp]
      rw [hcall] at h
      rw [hcall]
      have h2 : some g = some f := h
      injection h2 with h2
      rcases List.exists_of_findSome?_eq_some hfp with ⟨e, he, hfe⟩
      cases hef : e.font with
      | none => rw [hef] at hfe; simp at hfe
      | some g2 =>
        rw [hef] at hfe
        have hfe2 : (if g2.glyphId c ≠ 0 then some g2 else none) = some g := hfe
        rcases List.getElem?_of_mem he with ⟨j, hj⟩
        refine ⟨j, e, hj, ?_⟩
        rw [hef]
        by_cases hg : g2.glyphId c ≠ 0
        · rw [if_pos hg] at hfe2
          injection hfe2 with hfe2
          rw [hfe2, h2]
        · rw [if_neg hg] at hfe2
          exact absurd hfe2 (by simp)
    | none =>
      have hcall : find_fallback_for_char files cache c = slowGo files c 0 cache := by
        unfold find_fallback_for_char
        rw [hfp]
      rw [hcall] at h
      rw [hcall]
      exact slowGo_retains files c cache 0 f h
  · intro files cache c j e f hj hf
    cases hfp : fastPath cache c with
    | some g =>
      have hcall : find_fallback_for_char files cache c = (some g, cache, []) := by
        unfold find_fallback_for_char
        rw [hfp]
      rw [hcall]
      exact ⟨e, hj, hf⟩
    | none =>
      have hcall : find_fallback_for_char files cache c = slowGo files c 0 cache := by
        unfold find_fallback_for_char
        rw [hfp]
      rw [hcall]
      exact slowGo_retained_preserved files c cache 0 j e f hj hf
  · intro files cache c2 j e f hj hf hg
    cases hfp : fastPath cache c2 with
    | none => exact absurd hfp (fastPath_isSome_of_retained cache c2 j e f hj hf hg)
    | some g =>
      have hcall : find_fallback_for_char files cache c2 = (some g, cache, []) := by
        unfold find_fallback_for_char
        rw [hfp]
      rw [hcall]
      exact ⟨rfl, rfl, rfl, g, rfl, fastPath_some cache c2 g hfp⟩

lemma rround_isInt (q : ℚ) : IsIntQ (rround q) := by
  unfold rround
  split
  · exact ⟨_, rfl⟩
  · exact ⟨_, rfl⟩

lemma rround_intCast (z : ℤ) : rround (z : ℚ) = (z : ℚ) := by
  unfold rround
  split
  · rw [add_comm, Int.floor_add_int]
    norm_num
  · rw [show -(z : ℚ) + 1/2 = 1/2 + ((-z : ℤ) : ℚ) by push_cast; ring,
      Int.floor_add_int]
    norm_num

lemma IsIntQ.rround_eq {q : ℚ} (h : IsIntQ q) : rround q = q := by
  rcases h with ⟨z, rfl⟩
  exact rround_intCast z

lemma IsIntQ.add {a b : ℚ} (ha : IsIntQ a) (hb : IsIntQ b) : IsIntQ (a + b) := by
  rcases ha with ⟨x, rfl⟩
  rcases hb with ⟨y, rfl⟩
  exact ⟨x + y, by push_cast; ring⟩

lemma IsIntQ.sub {a b : ℚ} (ha : IsIntQ a) (hb : IsIntQ b) : IsIntQ (a - b) := by
  rcases ha with ⟨x, rfl⟩
  rcases hb with ⟨y, rfl⟩
  exact ⟨x - y, by push_cast; ring⟩

lemma IsIntQ_zero : IsIntQ 0 := ⟨0, by norm_num⟩

lemma resolveChar_covered (fp : Font) (files : List (Option GFont)) (c : Char)
    (h : Covered fp c) :
    ∃ r, ∀ cache : List CachedFont, resolveChar fp files cache c = (r, cache) := by
  by_cases hp : fp.primary.glyphId c ≠ 0
  · refine ⟨(fp.primary.glyphId c, none), fun cache => ?_⟩
    simp only [resolveChar]
    rw [if_pos hp]
  · rcases h with h | ⟨e, he, hge⟩
    · exact absurd h hp
    · refine ⟨(e.glyphId c, some e), fun cache => ?_⟩
      simp only [resolveChar]
      rw [if_neg hp, he]
      show (if e.glyphId c ≠ 0 then ((e.glyphId c, some e), cache) else _) = _
      rw [if_pos hge]

lemma resolveChar_fallback_nonzero (fp : Font) (files : List (Option GFont))
    (cache : List CachedFont) (c : Char) (gid : Nat) (fb : GFont)
    (h : (resolveChar fp files cache c).1 = (gid, some fb)) : gid ≠ 0 := by
  simp only [resolveChar] at h
  by_cases hp : fp.primary.glyphId c ≠ 0
  · rw [if_pos hp] at h
    have h1 : (none : Option GFont) = some fb := congrArg Prod.snd h
    exact absurd h1 (by simp)
  · rw [if_neg hp] at h
    cases he : fp.emoji with
    | some ef =>
      rw [he] at h
      have h2 : (if ef.glyphId c ≠ 0 then ((ef.glyphId c, some ef), cache)
          else match find_fallback_for_char files cache c with
            | (some fb2, cache2, _) => ((fb2.glyphId c, some fb2), cache2)
            | (none, cache2, _) => ((fp.primary.glyphId c, none), cache2)).1 =
          (gid, some fb) := h
      by_cases hge : ef.glyphId c ≠ 0
      · rw [if_pos hge] at h2
        have h1 : ef.glyphId c = gid := congrArg Prod.fst h2
        rw [← h1]
        exact hge
      · rw [if_neg hge] at h2
        cases hff : find_fallback_for_char files cache c with
        | mk o rest =>
          cases o with
          | some fb2 =>
            rw [hff] at h2
            have h1 : fb2.glyphId c = gid := congrArg Prod.fst h2
            rw [← h1]
            exact find_fallback_glyph files cache c fb2 (by rw [hff])
          | none =>
            rw [hff] at h2
            have h1 : (none : Option GFont) = some fb := congrArg Prod.snd h2
            exact absurd h1 (by simp)
    | none =>
      rw [he] at h
      have h2 : (match find_fallback_for_char files cache c with
            | (some fb2, cache2, _) => ((fb2.glyphId c, some fb2), cache2)
            | (none, cache2, _) => ((fp.primary.glyphId c, none), cache2)).1 =
          (gid, some fb) := h
      cases hff : find_fallback_for_char files cache c with
      | mk o rest =>
        cases o with
        | some fb2 =>
          rw [hff] at h2
          have h1 : fb2.glyphId c = gid := congrArg Prod.fst h2
          rw [← h1]
          exact find_fallback_glyph files cache c fb2 (by rw [hff])
        | none =>
          rw [hff] at h2
          have h1 : (none : Option GFont) = some fb := congrArg Prod.snd h2
          exact absurd h1 (by simp)

lemma stepCore_mem_ids (fp : Font) (maxW : ℚ) (core : LineCore) (c : Char)
    (gid : Nat) (fb : Option GFont) :
    ∀ pg' ∈ (stepCore fp maxW core c gid fb).glyphs,
      (∃ pg ∈ core.glyphs, pg'.id = pg.id ∧ pg'.fallback = pg.fallback) ∨
      (pg'.id = gid ∧ pg'.fallback = fb) := by
  intro pg' hmem
  simp only [stepCore] at hmem
  split at hmem
  · exact Or.inl ⟨pg', hmem, rfl, rfl⟩
  · split at hmem
    · split at hmem
      · rcases List.mem_append.1 hmem with h | h
        · rcases List.mem_append.1 (List.mem_of_mem_take h) with h2 | h2
          · exact Or.inl ⟨pg', h2, rfl, rfl⟩
          · rcases List.mem_singleton.1 h2 with rfl
            exact Or.inr ⟨rfl, rfl⟩
        · rcases List.mem_map.1 h with ⟨pg2, hpg2, rfl⟩
          rcases List.mem_append.1 (List.mem_of_mem_drop hpg2) with h2 | h2
          · exact Or.inl ⟨pg2, h2, rfl, rfl⟩
          · rcases List.mem_singleton.1 h2 with rfl
            exact Or.inr ⟨rfl, rfl⟩
      · rcases List.mem_append.1 hmem with h | h
        · exact Or.inl ⟨pg', h, rfl, rfl⟩
        · rcases List.mem_singleton.1 h with rfl
          exact Or.inr ⟨rfl, rfl⟩
    · rcases List.mem_append.1 hmem with h | h
      · exact Or.inl ⟨pg', h, rfl, rfl⟩
      · rcases List.mem_singleton.1 h with rfl
        exact Or.inr ⟨rfl, rfl⟩

lemma stepCore_x_int (fp : Font) (maxW : ℚ) (core : LineCore) (c : Char)
    (gid : Nat) (fb : Option GFont)
    (hall : ∀ pg ∈ core.glyphs, IsIntQ pg.x) :
    ∀ pg' ∈ (stepCore fp maxW core c gid fb).glyphs, IsIntQ pg'.x := by
  have hgs : ∀ pg ∈ core.glyphs ++
      [({ id := gid, x := rround (match fb, core.lastPrimary with
          | none, some l => core.x + fp.primary.kern l gid
          | _, _ => core.x), y := rround core.y, fallback := fb } : PlacedGlyph)],
      IsIntQ pg.x := by
    intro pg h
    rcases List.mem_append.1 h with h | h
    · exact hall pg h
    · rcases List.mem_singleton.1 h with rfl
      exact rround_isInt _
  intro pg' hmem
  simp only [stepCore] at hmem
  split at hmem
  · exact hall pg' hmem
  · split at hmem
    · split at hmem
      · rcases List.mem_append.1 hmem with h | h
        · exact hgs pg' (List.mem_of_mem_take h)
        · rcases List.mem_map.1 h with ⟨pg2, hpg2, rfl⟩
          refine IsIntQ.sub (hgs pg2 (List.mem_of_mem_drop hpg2)) ?_
          split
          · next g0 hg0 => exact hgs g0 (List.getElem?_mem hg0)
          · exact IsIntQ_zero
      · rcases List.mem_append.1 hmem with h | h
        · exact hall pg' h
        · rcases List.mem_singleton.1 h with rfl
          exact rround_isInt _
    · rcases List.mem_append.1 hmem with h | h
      · exact hall pg' h
      · rcases List.mem_singleton.1 h with rfl
        exact rround_isInt _

lemma stepCore_y_int (fp : Font) (maxW : ℚ) (core : LineCore) (c : Char)
    (gid : Nat) (fb : Option GFont) (hlh : IsIntQ (lineHeight fp))
    (hy : IsIntQ core.y) (hall : ∀ pg ∈ core.glyphs, IsIntQ pg.y) :
    IsIntQ (stepCore fp maxW core c gid fb).y ∧
    ∀ pg' ∈ (stepCore fp maxW core c gid fb).glyphs, IsIntQ pg'.y := by
  simp only [stepCore]
  split
  · exact ⟨hy, hall⟩
  · split
    · split
      · constructor
        · exact hy.add hlh
        · intro pg' hmem
          rcases List.mem_append.1 hmem with h | h
          · rcases List.mem_append.1 (List.mem_of_mem_take h) with h2 | h2
            · exact hall pg' h2
            · rcases List.mem_singleton.1 h2 with rfl
              exact rround_isInt _
          · rcases List.mem_map.1 h with ⟨pg2, hpg2, rfl⟩
            exact hy.add hlh
      · refine ⟨hy, ?_⟩
        intro pg' hmem
        rcases List.mem_append.1 hmem with h | h
        · exact hall pg' h
        · rcases List.mem_singleton.1 h with rfl
          exact rround_isInt _
    · refine ⟨hy, ?_⟩
      intro pg' hmem
      rcases List.mem_append.1 hmem with h | h
      · exact hall pg' h
      · rcases List.mem_singleton.1 h with rfl
        exact rround_isInt _

lemma stepCore_no_break (fp : Font) (maxW : ℚ) (core : LineCore) (c : Char)
    (gid : Nat) (fb : Option GFont)
    (hc : ¬(c = ' ' ∨ c = ZWSP)) (hsb : core.softbreak = none) :
    (stepCore fp maxW core c gid fb).softbreak = none ∧
    (stepCore fp maxW core c gid fb).y = core.y ∧
    ∀ pg' ∈ (stepCore fp maxW core c gid fb).glyphs,
      pg' ∈ core.glyphs ∨ pg'.y = rround core.y := by
  simp only [stepCore]
  rw [if_neg hc]
  rw [hsb]
  split
  · refine ⟨rfl, rfl, ?_⟩
    intro pg' hmem
    rcases List.mem_append.1 hmem with h | h
    · exact Or.inl h
    · rcases List.mem_singleton.1 h with rfl
      exact Or.inr rfl
  · refine ⟨rfl, rfl, ?_⟩
    intro pg' hmem
    rcases List.mem_append.1 hmem with h | h
    · exact Or.inl h
    · rcases List.mem_singleton.1 h with rfl
      exact Or.inr rfl

lemma stepCore_preserve_exists (fp : Font) (maxW : ℚ) (core : LineCore)
    (c : Char) (gid : Nat) (fb : Option GFont) (P : Nat → Option GFont → Prop)
    (h : ∃ pg ∈ core.glyphs, P pg.id pg.fallback) :
    ∃ pg ∈ (stepCore fp maxW core c gid fb).glyphs, P pg.id pg.fallback := by
  rcases h with ⟨pg, hpg, hP⟩
  simp only [stepCore]
  split
  · exact ⟨pg, hpg, hP⟩
  · generalize ({ id := gid, x := rround (match fb, core.lastPrimary with
        | none, some l => core.x + fp.primary.kern l gid
        | _, _ => core.x), y := rround core.y, fallback := fb } : PlacedGlyph) = g
    have hmem : pg ∈ core.glyphs ++ [g] := List.mem_append.2 (Or.inl hpg)
    split
    · split
      · next i hi =>
        rw [← List.take_append_drop i (core.glyphs ++ [g])] at hmem
        rcases List.mem_append.1 hmem with h2 | h2
        · exact ⟨pg, List.mem_append.2 (Or.inl h2), hP⟩
        · exact ⟨_, List.mem_append.2 (Or.inr (List.mem_map.2 ⟨pg, h2, rfl⟩)), hP⟩
      · exact ⟨pg, hmem, hP⟩
    · exact ⟨pg, hmem, hP⟩

lemma stepCore_pushes (fp : Font) (maxW : ℚ) (core : LineCore) (c : Char)
    (gid : Nat) (fb : Option GFont) (hc : ¬(c = ' ' ∨ c = ZWSP)) :
    ∃ pg ∈ (stepCore fp maxW core c gid fb).glyphs,
      pg.id = gid ∧ pg.fallback = fb := by
  simp only [stepCore]
  rw [if_neg hc]
  generalize hG : ({ id := gid, x := rround (match fb, core.lastPrimary with
      | none, some l => core.x + fp.primary.kern l gid
      | _, _ => core.x), y := rround core.y, fallback := fb } : PlacedGlyph) = g
  have hid : g.id = gid := by rw [← hG]
  have hfb : g.fallback = fb := by rw [← hG]
  have hmem : g ∈ core.glyphs ++ [g] :=
    List.mem_append.2 (Or.inr (List.mem_singleton.2 rfl))
  split
  · split
    · next i hi =>
      rw [← List.take_append_drop i (core.glyphs ++ [g])] at hmem
      rcases List.mem_append.1 hmem with h2 | h2
      · exact ⟨g, List.mem_append.2 (Or.inl h2), hid, hfb⟩
      · exact ⟨_, List.mem_append.2 (Or.inr (List.mem_map.2 ⟨g, h2, rfl⟩)), hid, hfb⟩
    · exact ⟨g, hmem, hid, hfb⟩
  · exact ⟨g, hmem, hid, hfb⟩

lemma runLine_no_break (fp : Font) (files : List (Option GFont)) (maxW y0 : ℚ)
    (cache : List CachedFont) (line : List Char)
    (h : ∀ c ∈ line, ¬(c = ' ' ∨ c = ZWSP)) :
    (runLine fp files maxW y0 cache line).1.softbreak = none ∧
    (runLine fp files maxW y0 cache line).1.y = y0 ∧
    ∀ pg ∈ (runLine fp files maxW y0 cache line).1.glyphs, pg.y = rround y0 := by
  unfold runLine
  refine @List.foldlRecOn (LineCore × List CachedFont) Char
    (fun st => st.1.softbreak = none ∧ st.1.y = y0 ∧
      ∀ pg ∈ st.1.glyphs, pg.y = rround y0)
    line (stepChar fp files maxW)
    ({ x := 0, glyphs := [], softbreak := none, lastPrimary := none, y := y0 }, cache)
    ⟨rfl, rfl, by simp⟩ ?_
  intro st hst a ha
  rcases stepCore_no_break fp maxW st.1 a (resolveChar fp files st.2 a).1.1
    (resolveChar fp files st.2 a).1.2 (h a ha) hst.1 with ⟨h1, h2, h3⟩
  refine ⟨h1, h2.trans hst.2.1, ?_⟩
  intro pg hpg
  rcases h3 pg hpg with hin | hy
  · exact hst.2.2 pg hin
  · rw [hy, hst.2.1]

lemma runLine_x_int (fp : Font) (files : List (Option GFont)) (maxW y0 : ℚ)
    (cache : List CachedFont) (line : List Char) :
    ∀ pg ∈ (runLine fp files maxW y0 cache line).1.glyphs, IsIntQ pg.x := by
  unfold runLine
  refine @List.foldlRecOn (LineCore × List CachedFont) Char
    (fun st => ∀ pg ∈ st.1.glyphs, IsIntQ pg.x)
    line (stepChar fp files maxW)
    ({ x := 0, glyphs := [], softbreak := none, lastPrimary := none, y := y0 }, cache)
    (by simp) ?_
  intro st hst a ha
  exact stepCore_x_int fp maxW st.1 a _ _ hst

lemma runLine_y_int (fp : Font) (files : List (Option GFont)) (maxW y0 : ℚ)
    (cache : List CachedFont) (line : List Char)
    (hlh : IsIntQ (lineHeight fp)) (hy0 : IsIntQ y0) :
    IsIntQ (runLine fp files maxW y0 cache line).1.y ∧
    ∀ pg ∈ (runLine fp files maxW y0 cache line).1.glyphs, IsIntQ pg.y := by
  unfold runLine
  refine @List.foldlRecOn (LineCore × List CachedFont) Char
    (fun st => IsIntQ st.1.y ∧ ∀ pg ∈ st.1.glyphs, IsIntQ pg.y)
    line (stepChar fp files maxW)
    ({ x := 0, glyphs := [], softbreak := none, lastPrimary := none, y := y0 }, cache)
    ⟨hy0, by simp⟩ ?_
  intro st hst a ha
  exact stepCore_y_int fp maxW st.1 a _ _ hlh hst.1 hst.2

lemma runLine_ids (fp : Font) (files : List (Option GFont)) (maxW y0 : ℚ)
    (cache : List CachedFont) (line : List Char) :
    ∀ pg ∈ (runLine fp files maxW y0 cache line).1.glyphs,
      ∀ fb, pg.fallback = some fb → pg.id ≠ 0 := by
  unfold runLine
  refine @List.foldlRecOn (LineCore × List CachedFont) Char
    (fun st => ∀ pg ∈ st.1.glyphs, ∀ fb, pg.fallback = some fb → pg.id ≠ 0)
    line (stepChar fp files maxW)
    ({ x := 0, glyphs := [], softbreak := none, lastPrimary := none, y := y0 }, cache)
    (by simp) ?_
  intro st hst a ha pg hpg fb hfb
  rcases stepCore_mem_ids fp maxW st.1 a _ _ pg hpg with ⟨pg2, hpg2, hid, hfb2⟩ | ⟨hid, hfb2⟩
  · rw [hid]
    exact hst pg2 hpg2 fb (hfb2.symm.trans hfb)
  · rw [hid]
    have he : (resolveChar fp files st.2 a).1.2 = some fb := hfb2.symm.trans hfb
    have hpair : (resolveChar fp files st.2 a).1 =
        ((resolveChar fp files st.2 a).1.1, some fb) := by
      rw [← he]
    exact resolveChar_fallback_nonzero fp files st.2 a _ fb hpair

lemma foldl_preserve_exists (fp : Font) (files : List (Option GFont)) (maxW : ℚ)
    (P : Nat → Option GFont → Prop) (line : List Char)
    (st : LineCore × List CachedFont)
    (h : ∃ pg ∈ st.1.glyphs, P pg.id pg.fallback) :
    ∃ pg ∈ (line.foldl (stepChar fp files maxW) st).1.glyphs, P pg.id pg.fallback := by
  refine @List.foldlRecOn (LineCore × List CachedFont) Char
    (fun st2 => ∃ pg ∈ st2.1.glyphs, P pg.id pg.fallback)
    line (stepChar fp files maxW) st h ?_
  intro st2 hst a ha
  exact stepCore_preserve_exists fp maxW st2.1 a _ _ P hst

lemma foldl_covered (fp : Font) (files : List (Option GFont)) (maxW : ℚ)
    (line : List Char) (h : ∀ c ∈ line, Covered fp c) :
    ∃ F : LineCore → LineCore, ∀ (core : LineCore) (cache : List CachedFont),
      line.foldl (stepChar fp files maxW) (core, cache) = (F core, cache) := by
  induction line with
  | nil => exact ⟨id, fun core cache => rfl⟩
  | cons c rest ih =>
    rcases resolveChar_covered fp files c (h c (List.mem_cons_self c rest)) with ⟨r, hr⟩
    rcases ih (fun c2 h2 => h c2 (List.mem_cons_of_mem c h2)) with ⟨F, hF⟩
    refine ⟨fun core => F (stepCore fp maxW core c r.1 r.2), ?_⟩
    intro core cache
    rw [List.foldl_cons]
    have hstep : stepChar fp files maxW (core, cache) c =
        (stepCore fp maxW core c r.1 r.2, cache) := by
      simp [stepChar, hr cache]
    rw [hstep]
    exact hF _ cache

lemma runLine_covered (fp : Font) (files : List (Option GFont)) (maxW : ℚ)
    (line : List Char) (h : ∀ c ∈ line, Covered fp c) (y0 : ℚ)
    (cache1 cache2 : List CachedFont) :
    (runLine fp files maxW y0 cache1 line).1 = (runLine fp files maxW y0 cache2 line).1 ∧
    (runLine fp files maxW y0 cache1 line).2 = cache1 := by
  rcases foldl_covered fp files maxW line h with ⟨F, hF⟩
  unfold runLine
  rw [hF _ cache1, hF _ cache2]
  exact ⟨rfl, rfl⟩

lemma layoutLines_covered (fp : Font) (files : List (Option GFont)) (maxW : ℚ) :
    ∀ (lines : List (List Char)), (∀ line ∈ lines, ∀ c ∈ line, Covered fp c) →
    ∀ (y : ℚ) (cache1 cache2 : List CachedFont),
      (layoutLines fp files maxW y cache1 lines).1 =
        (layoutLines fp files maxW y cache2 lines).1 ∧
      (layoutLines fp files maxW y cache1 lines).2 = cache1 := by
  intro lines
  induction lines with
  | nil => intro h y c1 c2; exact ⟨rfl, rfl⟩
  | cons l ls ih =>
    intro h y c1 c2
    rcases runLine_covered fp files maxW l (h l (List.mem_cons_self l ls)) y c1 c2
      with ⟨he, hc1⟩
    have hc2 := (runLine_covered fp files maxW l
      (h l (List.mem_cons_self l ls)) y c2 c2).2
    have hrec := ih (fun l2 hl2 c hc => h l2 (List.mem_cons_of_mem _ hl2) c hc)
      ((runLine fp files maxW y c2 l).1.y + lineHeight fp) c1 c2
    simp only [layoutLines]
    rw [he, hc1, hc2]
    exact ⟨by rw [hrec.1], hrec.2⟩

lemma layoutLines_all (fp : Font) (files : List (Option GFont)) (maxW : ℚ)
    (P : PlacedGlyph → Prop)
    (hstep : ∀ (y0 : ℚ) (cache : List CachedFont) (line : List Char),
      ∀ pg ∈ (runLine fp files maxW y0 cache line).1.glyphs, P pg) :
    ∀ (lines : List (List Char)) (y : ℚ) (cache : List CachedFont),
      ∀ gl ∈ (layoutLines fp files maxW y cache lines).1, ∀ pg ∈ gl, P pg := by
  intro lines
  induction lines with
  | nil => intro y cache gl hgl; simp [layoutLines] at hgl
  | cons l ls ih =>
    intro y cache gl hgl
    simp only [layoutLines] at hgl
    rcases List.mem_cons.1 hgl with h | h
    · subst h
      exact hstep y cache l
    · exact ih _ _ gl h

lemma layoutLines_y_int (fp : Font) (files : List (Option GFont)) (maxW : ℚ)
    (hlh : IsIntQ (lineHeight fp)) :
    ∀ (lines : List (List Char)) (y : ℚ) (cache : List CachedFont), IsIntQ y →
      ∀ gl ∈ (layoutLines fp files maxW y cache lines).1, ∀ pg ∈ gl, IsIntQ pg.y := by
  intro lines
  induction lines with
  | nil => intro y cache hy gl hgl; simp [layoutLines] at hgl
  | cons l ls ih =>
    intro y cache hy gl hgl
    simp only [layoutLines] at hgl
    rcases List.mem_cons.1 hgl with h | h
    · subst h
      exact (runLine_y_int fp files maxW y cache l hlh hy).2
    · exact ih _ _ ((runLine_y_int fp files maxW y cache l hlh hy).1.add hlh) gl h

lemma layoutLines_no_break (fp : Font) (files : List (Option GFont)) (maxW : ℚ) :
    ∀ (lines : List (List Char)) (y : ℚ) (cache : List CachedFont) (i : Nat)
      (line : List Char) (gl : List PlacedGlyph),
      lines[i]? = some line → (∀ c ∈ line, ¬(c = ' ' ∨ c = ZWSP)) →
      (layoutLines fp files maxW y cache lines).1[i]? = some gl →
      ∀ pg ∈ gl, ∀ pg2 ∈ gl, pg.y = pg2.y := by
  intro lines
  induction lines with
  | nil => intro y cache i line gl h; simp at h
  | cons l ls ih =>
    intro y cache i line gl hline hnb hgl
    cases i with
    | zero =>
      rw [List.getElem?_cons_zero] at hline
      injection hline with hline
      subst hline
      simp only [layoutLines] at hgl
      rw [List.getElem?_cons_zero] at hgl
      injection hgl with hgl
      subst hgl
      intro pg hpg pg2 hpg2
      have hall := (runLine_no_break fp files maxW y cache l hnb).2.2
      rw [hall pg hpg, hall pg2 hpg2]
    | succ i =>
      rw [List.getElem?_cons_succ] at hline
      simp only [layoutLines] at hgl
      rw [List.getElem?_cons_succ] at hgl
      exact ih _ _ i line gl hline hnb hgl

/-- C5: `layout` is the concatenation of the per-line glyph runs, and a
line containing no plain space and no zero-width space is never
soft-wrapped: all glyphs of such a line share one y position, even when
the cumulative advance exceeds `max_width`. -/
theorem c5_no_break_without_soft_point :
    (∀ (fp : Font) (files : List (Option GFont)) (maxW : ℚ)
      (cache : List CachedFont) (text : List Char),
      (layout fp files maxW cache text).1 =
        ((layoutLines fp files maxW 0 cache (linesOf text)).1).flatten) ∧
    (∀ (fp : Font) (files : List (Option GFont)) (maxW : ℚ)
      (cache : List CachedFont) (text : List Char) (i : Nat)
      (line : List Char) (gl : List PlacedGlyph),
      (linesOf text)[i]? = some line →
      (∀ c ∈ line, c ≠ ' ' ∧ c ≠ ZWSP) →
      (layoutLines fp files maxW 0 cache (linesOf text)).1[i]? = some gl →
      ∀ pg ∈ gl, ∀ pg2 ∈ gl, pg.y = pg2.y) := by
  constructor
  · intro fp files maxW cache text
    rfl
  · intro fp files maxW cache text i line gl h1 h2 h3
    refine layoutLines_no_break fp files maxW (linesOf text) 0 cache i line gl h1 ?_ h3
    intro c hc
    rcases h2 c hc with ⟨ha, hb⟩
    rintro (h | h)
    · exact ha h
    · exact hb h

/-- C5 witness: a 3-glyph line with advance far beyond `max_width = 5`
and no soft points keeps a single y position. -/
theorem c5_witness :
    ∀ pg ∈ (runLine fpNum [] 5 0 [] "abc".toList).1.glyphs,
      ∀ pg2 ∈ (runLine fpNum [] 5 0 [] "abc".toList).1.glyphs, pg.y = pg2.y :=
  c5_no_break_without_soft_point.2 fpNum [] 5 [] "abc".toList 0 "abc".toList
    ((runLine fpNum [] 5 0 [] "abc".toList).1.glyphs) rfl (by decide) rfl

/-- C2 (amended): every glyph x position produced by `layout` equals its
own rounding (is an integer); y positions equal their own rounding
whenever the primary font's line height is integral.  A soft wrap
repositions the wrapped glyphs at the unrounded new line y, so for a
fractional line height the claim as stated fails (see the
counterexample). -/
theorem c2_positions_rounded :
    ∀ (fp : Font) (files : List (Option GFont)) (maxW : ℚ)
      (cache : List CachedFont) (text : List Char),
      (∀ pg ∈ (layout fp files maxW cache text).1, pg.x = rround pg.x) ∧
      (IsIntQ (lineHeight fp) →
        ∀ pg ∈ (layout fp files maxW cache text).1, pg.y = rround pg.y) := by
  intro fp files maxW cache text
  constructor
  · intro pg hpg
    simp only [layout] at hpg
    rcases List.mem_flatten.1 hpg with ⟨gl, hgl, hmem⟩
    have h := layoutLines_all fp files maxW (fun pg => IsIntQ pg.x)
      (fun y0 cache2 line => runLine_x_int fp files maxW y0 cache2 line)
      (linesOf text) 0 cache gl hgl pg hmem
    exact h.rround_eq.symm
  · intro hlh pg hpg
    simp only [layout] at hpg
    rcases List.mem_flatten.1 hpg with ⟨gl, hgl, hmem⟩
    have h := layoutLines_y_int fp files maxW hlh (linesOf text) 0 cache
      IsIntQ_zero gl hgl pg hmem
    exact h.rround_eq.symm

/-- C2 witness: with the integral line height 14 of `fontNum`, both
positions of every glyph of a wrapped text are integers. -/
theorem c2_witness :
    (∀ pg ∈ (layout fpNum [] 25 [] "ab cd".toList).1, pg.x = rround pg.x) ∧
    (∀ pg ∈ (layout fpNum [] 25 [] "ab cd".toList).1, pg.y = rround pg.y) :=
  ⟨(c2_positions_rounded fpNum [] 25 [] "ab cd".toList).1,
   (c2_positions_rounded fpNum [] 25 [] "ab cd".toList).2
     ⟨14, by norm_num [lineHeight, fpNum, fontNum]⟩⟩

/-- C10: `find_fallback_for_char` only answers with fonts whose character
map yields a non-notdef glyph id for the requested character, on both the
fast and the slow path; consequently every glyph `layout` places with a
recorded fallback font has a non-notdef glyph id. -/
theorem c10_fallback_nonzero_glyph :
    (∀ (files : List (Option GFont)) (cache : List CachedFont) (c : Char) (f : GFont),
      (find_fallback_for_char files cache c).1 = some f → f.glyphId c ≠ 0) ∧
    (∀ (fp : Font) (files : List (Option GFont)) (maxW : ℚ)
      (cache : List CachedFont) (text : List Char),
      ∀ pg ∈ (layout fp files maxW cache text).1,
        ∀ fb, pg.fallback = some fb → pg.id ≠ 0) := by
  constructor
  · exact find_fallback_glyph
  · intro fp files maxW cache text pg hpg fb hfb
    simp only [layout] at hpg
    rcases List.mem_flatten.1 hpg with ⟨gl, hgl, hmem⟩
    exact layoutLines_all fp files maxW
      (fun pg => ∀ fb, pg.fallback = some fb → pg.id ≠ 0)
      (fun y0 cache2 line => runLine_ids fp files maxW y0 cache2 line)
      (linesOf text) 0 cache gl hgl pg hmem fb hfb

/-- C10 witness: the cold-cache lookup of `q` answers with `fontA`, whose
map indeed has a non-notdef glyph for `q`. -/
theorem c10_witness : fontA.glyphId 'q' ≠ 0 :=
  c10_fallback_nonzero_glyph.1 filesAB cacheAB 'q' fontA rfl

lemma subRect_refl (a : GRect) : subRect a a :=
  ⟨le_refl _, le_refl _, le_refl _, le_refl _⟩

lemma subRect_trans {a b c : GRect} (h1 : subRect a b) (h2 : subRect b c) :
    subRect a c :=
  ⟨le_trans h2.1 h1.1, le_trans h2.2.1 h1.2.1,
   le_trans h1.2.2.1 h2.2.2.1, le_trans h1.2.2.2 h2.2.2.2⟩

lemma subRect_union_left (a b : GRect) : subRect a (rectUnion a b) :=
  ⟨min_le_left _ _, min_le_left _ _, le_max_left _ _, le_max_left _ _⟩

lemma subRect_union_right (a b : GRect) : subRect b (rectUnion a b) :=
  ⟨min_le_right _ _, min_le_right _ _, le_max_right _ _, le_max_right _ _⟩

lemma foldl_union_init : ∀ (l : List GRect) (init : GRect),
    subRect init (l.foldl rectUnion init) := by
  intro l
  induction l with
  | nil => intro init; exact subRect_refl init
  | cons r t ih =>
    intro init
    exact subRect_trans (subRect_union_left init r) (ih (rectUnion init r))

lemma foldl_union_mem : ∀ (l : List GRect) (init r : GRect), r ∈ l →
    subRect r (l.foldl rectUnion init) := by
  intro l
  induction l with
  | nil => intro init r h; simp at h
  | cons r0 t ih =>
    intro init r h
    rcases List.mem_cons.1 h with h | h
    · subst h
      exact subRect_trans (subRect_union_right init r) (foldl_union_init t _)
    · exact ih _ r h

lemma unionBounds_mem (gs : List RenderedGlyph) (g : RenderedGlyph)
    (h : g ∈ gs) : subRect g.bbox (unionBounds gs) := by
  have hb : g.bbox ∈ gs.map RenderedGlyph.bbox := List.mem_map_of_mem _ h
  unfold unionBounds
  cases hm : gs.map RenderedGlyph.bbox with
  | nil => rw [hm] at hb; simp at hb
  | cons r rs =>
    rw [hm] at hb
    rcases List.mem_cons.1 hb with h2 | h2
    · rw [h2]
      exact foldl_union_init rs r
    · exact foldl_union_mem rs r _ h2

lemma stripCr_subset {c : Char} {l : List Char} (h : c ∈ stripCr l) : c ∈ l := by
  unfold stripCr at h
  split at h
  · exact List.dropLast_subset l h
  · exact h

lemma linesGo_mem : ∀ (rest acc line : List Char) (c : Char),
    line ∈ linesGo rest acc → c ∈ line → c ∈ acc ∨ c ∈ rest := by
  intro rest
  induction rest with
  | nil =>
    intro acc line c hline hc
    simp only [linesGo] at hline
    split at hline
    · simp at hline
    · rcases List.mem_singleton.1 hline with rfl
      exact Or.inl hc
  | cons d r ih =>
    intro acc line c hline hc
    simp only [linesGo] at hline
    split at hline
    · rcases List.mem_cons.1 hline with h | h
      · subst h
        exact Or.inl (stripCr_subset hc)
      · rcases ih [] line c h hc with h2 | h2
        · simp at h2
        · exact Or.inr (List.mem_cons_of_mem d h2)
    · rcases ih (acc ++ [d]) line c hline hc with h2 | h2
      · rcases List.mem_append.1 h2 with h3 | h3
        · exact Or.inl h3
        · rcases List.mem_singleton.1 h3 with rfl
          exact Or.inr (List.mem_cons_self _ _)
      · exact Or.inr (List.mem_cons_of_mem d h2)

lemma mem_of_mem_linesOf {text line : List Char} {c : Char}
    (hline : line ∈ linesOf text) (hc : c ∈ line) : c ∈ text := by
  rcases linesGo_mem text [] line c hline hc with h | h
  · simp at h
  · exact h

lemma linesGo_no_nl : ∀ (rest acc : List Char), (∀ c ∈ rest, c ≠ '\x0a') →
    linesGo rest acc = if (acc ++ rest).isEmpty then [] else [acc ++ rest] := by
  intro rest
  induction rest with
  | nil =>
    intro acc h
    simp [linesGo]
  | cons c r ih =>
    intro acc h
    have hc : ¬(c = '\x0a') := h c (List.mem_cons_self c r)
    simp only [linesGo]
    rw [if_neg hc, ih (acc ++ [c]) (fun c2 h2 => h c2 (List.mem_cons_of_mem c h2))]
    simp [List.append_assoc]

lemma linesOf_single (text : List Char) (hnl : ∀ c ∈ text, c ≠ '\x0a')
    (hne : text ≠ []) : linesOf text = [text] := by
  unfold linesOf
  rw [linesGo_no_nl text [] hnl]
  rw [List.nil_append]
  rw [if_neg (fun h => hne (List.isEmpty_iff.1 h))]

/-- C4 (amended): for a single-line text and a font whose printable-ASCII
glyphs are all present with outlines of positive extent, `measure`
returns strictly positive width and height provided the text contains at
least one printable (non-space, non-control) ASCII character.  The
original claim fails for non-empty all-space text, which produces no
glyph records and measures (0, 0) — see the counterexample. -/
theorem c4_measure_positive :
    ∀ (fp : Font) (files : List (Option GFont)) (maxW : ℚ)
      (cache : List CachedFont) (text : List Char),
      (∀ c : Char, 33 ≤ c.toNat → c.toNat ≤ 126 →
        fp.primary.glyphId c ≠ 0 ∧
        ∃ rel, fp.primary.outlineOf (fp.primary.glyphId c) = some rel ∧
          rel.minX < rel.maxX ∧ rel.minY < rel.maxY) →
      (∀ c ∈ text, c ≠ '\x0a') →
      (∃ c ∈ text, 33 ≤ c.toNat ∧ c.toNat ≤ 126) →
      0 < (measure fp files maxW cache text).1.1 ∧
      0 < (measure fp files maxW cache text).1.2 := by
  intro fp files maxW cache text hfont hnl hvis
  rcases hvis with ⟨c0, hc0mem, hlo, hhi⟩
  have hne : text ≠ [] := by
    intro h
    rw [h] at hc0mem
    simp at hc0mem
  have hlay : (layout fp files maxW cache text).1 =
      (runLine fp files maxW 0 cache text).1.glyphs := by
    simp [layout, linesOf_single text hnl hne, layoutLines]
  rcases hfont c0 hlo hhi with ⟨hgid, rel, hrel, hrw, hrh⟩
  rcases List.append_of_mem hc0mem with ⟨l1, l2, htext⟩
  have hexists : ∃ pg ∈ (runLine fp files maxW 0 cache text).1.glyphs,
      pg.id = fp.primary.glyphId c0 ∧ pg.fallback = none := by
    rw [htext]
    unfold runLine
    rw [List.foldl_append, List.foldl_cons]
    apply foldl_preserve_exists fp files maxW
      (fun i f => i = fp.primary.glyphId c0 ∧ f = none) l2
    have hres : (resolveChar fp files
        (List.foldl (stepChar fp files maxW)
          ({ x := 0, glyphs := [], softbreak := none, lastPrimary := none, y := 0 },
            cache) l1).2 c0).1 = (fp.primary.glyphId c0, none) := by
      simp only [resolveChar]
      rw [if_pos hgid]
    have hcnb : ¬(c0 = ' ' ∨ c0 = ZWSP) := by
      rintro (h | h)
      · subst h
        exact absurd hlo (by decide)
      · subst h
        exact absurd hhi (by decide)
    rcases stepCore_pushes fp maxW
      (List.foldl (stepChar fp files maxW)
        ({ x := 0, glyphs := [], softbreak := none, lastPrimary := none, y := 0 },
          cache) l1).1 c0
      (resolveChar fp files
        (List.foldl (stepChar fp files maxW)
          ({ x := 0, glyphs := [], softbreak := none, lastPrimary := none, y := 0 },
            cache) l1).2 c0).1.1
      (resolveChar fp files
        (List.foldl (stepChar fp files maxW)
          ({ x := 0, glyphs := [], softbreak := none, lastPrimary := none, y := 0 },
            cache) l1).2 c0).1.2 hcnb with ⟨pg, hpg, hid, hfb⟩
    refine ⟨pg, hpg, ?_, ?_⟩
    · rw [hid, hres]
    · rw [hfb, hres]
  rcases hexists with ⟨pg, hpg, hid, hfb⟩
  have hresg : resolveGlyph fp pg = some (RenderedGlyph.outlined
      ⟨pg.x + rel.minX, pg.y + rel.minY, pg.x + rel.maxX, pg.y + rel.maxY⟩) := by
    unfold resolveGlyph glyphFont
    rw [hfb, hid]
    simp only [Option.getD_none]
    rw [hrel]
  have hmemres : RenderedGlyph.outlined ⟨pg.x + rel.minX, pg.y + rel.minY,
      pg.x + rel.maxX, pg.y + rel.maxY⟩ ∈
      resolve_glyphs fp (layout fp files maxW cache text).1 :=
    List.mem_filterMap.2 ⟨pg, by rw [hlay]; exact hpg, hresg⟩
  have hsub := unionBounds_mem _ _ hmemres
  simp only [RenderedGlyph.bbox] at hsub
  simp only [measure]
  constructor
  · have h1 := hsub.1
    have h3 := hsub.2.2.1
    simp only at h1 h3
    linarith
  · have h2 := hsub.2.1
    have h4 := hsub.2.2.2
    simp only at h2 h4
    linarith

/-- C4 witness: a one-letter text measures strictly positive under the
all-ASCII test font. -/
theorem c4_witness :
    0 < (measure fpNum [] 1000 [] "a".toList).1.1 ∧
    0 < (measure fpNum [] 1000 [] "a".toList).1.2 :=
  c4_measure_positive fpNum [] 1000 [] "a".toList
    (fun c h1 _ => by
      refine ⟨?_, ⟨0, -8, 6, 0⟩, ?_, by norm_num, by norm_num⟩
      · show c.toNat ≠ 0
        omega
      · simp only [fpNum, fontNum]
        rw [if_neg (show ¬c.toNat = 0 by omega)])
    (by decide) (by decide)

/-- C4 counterexample: the non-empty single-line ASCII text consisting of
one space measures (0, 0) — spaces record only a break opportunity, never
a glyph, so the bounding box is the default zero rectangle. -/
theorem c4_counterexample :
    ¬ (0 < (measure fpNum [] 1000 [] " ".toList).1.1 ∧
       0 < (measure fpNum [] 1000 [] " ".toList).1.2) := by
  have heval : (measure fpNum [] 1000 [] " ".toList).1 = (0, 0) := by
    norm_num +decide [measure, layout, layoutLines, linesOf, linesGo, stripCr,
      runLine, stepChar, stepCore, resolveChar, resolve_glyphs, unionBounds,
      lineHeight, rround, fpNum, fontNum, ZWSP, List.foldl,
      List.filterMap_cons, List.filterMap_nil]
  rw [heval]
  norm_num

/-- C1 (amended): when every character of the text is present in the
primary or emoji font (so no fallback lookup occurs), `measure` returns
the same dimensions under any two fallback-cache states and leaves the
cache unchanged.  In general the claim fails: for fallback-resolved
characters, the retained-font fast path can select a different font than
a cold cache's candidate-order slow path, changing the measurement (see
the counterexample). -/
theorem c1_measure_deterministic_when_covered :
    ∀ (fp : Font) (files : List (Option GFont)) (maxW : ℚ) (text : List Char),
      (∀ c ∈ text, Covered fp c) →
      ∀ cache1 cache2 : List CachedFont,
        (measure fp files maxW cache1 text).1 =
          (measure fp files maxW cache2 text).1 ∧
        (measure fp files maxW cache1 text).2 = cache1 := by
  intro fp files maxW text h cache1 cache2
  have hlines : ∀ line ∈ linesOf text, ∀ c ∈ line, Covered fp c :=
    fun line hline c hc => h c (mem_of_mem_linesOf hline hc)
  have hcov := layoutLines_covered fp files maxW (linesOf text) hlines 0 cache1 cache2
  constructor
  · simp only [measure, layout]
    rw [hcov.1]
  · simp only [measure, layout]
    exact hcov.2

/-- C1 witness: a text fully covered by the primary font measures the
same under the empty cache and under a cache retaining `fontB`. -/
theorem c1_witness :
    (measure fpHalf [] 100 [] "ab".toList).1 =
      (measure fpHalf [] 100 [{ font := some fontB, load_failed := false }]
        "ab".toList).1 :=
  (c1_measure_deterministic_when_covered fpHalf [] 100 "ab".toList
    (fun _ _ => Or.inl one_ne_zero) []
    [{ font := some fontB, load_failed := false }]).1

/-- C1 counterexample: with a primary font lacking `q` and candidates
`fontA` (5px glyphs, has `q`) before `fontB` (9px glyphs, has `q` and
`z`), a cold cache resolves `q` through `fontA` and measures (5, 5),
while a cache warmed by a lookup of `z` (which retained `fontB`) serves
`q` from the fast path through `fontB` and measures (9, 9). -/
theorem c1_counterexample :
    (measure fpNone filesAB 1000 cacheAB "q".toList).1 ≠
      (measure fpNone filesAB 1000 warmAB "q".toList).1 := by
  have h1 : (measure fpNone filesAB 1000 cacheAB "q".toList).1 = (5, 5) := by
    norm_num +decide [measure, layout, layoutLines, linesOf, linesGo, stripCr,
      runLine, stepChar, stepCore, resolveChar, find_fallback_for_char, fastPath,
      slowGo, ensure_fallback_cache, resolve_glyphs, resolveGlyph, glyphFont,
      unionBounds, rectUnion, RenderedGlyph.bbox, lineHeight, rround, fpNone,
      fontNone, fontA, fontB, filesAB, cacheAB, ZWSP, List.foldl, List.findSome?,
      List.filterMap_cons, List.filterMap_nil, Option.getD]
  have h2 : (measure fpNone filesAB 1000 warmAB "q".toList).1 = (9, 9) := by
    norm_num +decide [measure, layout, layoutLines, linesOf, linesGo, stripCr,
      runLine, stepChar, stepCore, resolveChar, find_fallback_for_char, fastPath,
      slowGo, ensure_fallback_cache, resolve_glyphs, resolveGlyph, glyphFont,
      unionBounds, rectUnion, RenderedGlyph.bbox, lineHeight, rround, fpNone,
      fontNone, fontA, fontB, filesAB, cacheAB, warmAB, ZWSP, List.foldl,
      List.findSome?, List.filterMap_cons, List.filterMap_nil, Option.getD]
  rw [h1, h2]
  norm_num [Prod.mk.injEq]

/-- C2 counterexample: with the fractional line height 15/2 of
`fontHalf`, the glyph repositioned by the soft wrap of "ab cd" at
`max_width = 25` sits at the unrounded y = 15/2 ≠ round(15/2) = 8. -/
theorem c2_counterexample :
    ¬ ∀ pg ∈ (layout fpHalf [] 25 [] "ab cd".toList).1, pg.y = rround pg.y := by
  intro h
  have heval : ((layout fpHalf [] 25 [] "ab cd".toList).1.map
      (fun pg => pg.y))[2]? = some (15/2) := by
    norm_num +decide [layout, layoutLines, linesOf, linesGo, stripCr, runLine,
      stepChar, stepCore, resolveChar, lineHeight, rround, fpHalf, fontHalf,
      ZWSP, List.foldl]
  rw [List.getElem?_map] at heval
  cases hpg : (layout fpHalf [] 25 [] "ab cd".toList).1[2]? with
  | none => rw [hpg] at heval; simp at heval
  | some pg =>
    rw [hpg] at heval
    have hsome : some pg.y = some ((15 : ℚ)/2) := heval
    injection hsome with heval
    have hmem : pg ∈ (layout fpHalf [] 25 [] "ab cd".toList).1 :=
      List.getElem?_mem hpg
    have := h pg hmem
    rw [heval] at this
    rw [show rround (15/2 : ℚ) = 8 by norm_num [rround]] at this
    norm_num at this

/-- C7 witness: after a lookup of `z` retained `fontB`, a lookup of the
different character `q` (also in `fontB`) reads no file and leaves the
cache unchanged. -/
theorem c7_witness :
    (find_fallback_for_char filesAB warmAB 'q').2.2 = [] ∧
    (find_fallback_for_char filesAB warmAB 'q').2.1 = warmAB ∧
    (find_fallback_for_char filesAB warmAB 'q').1 = fastPath warmAB 'q' ∧
    ∃ g, fastPath warmAB 'q' = some g ∧ g.glyphId 'q' ≠ 0 :=
  c7_fast_path_retention.2.2 filesAB warmAB 'q' 1
    { font := some fontB, load_failed := false } fontB rfl rfl (by decide)

end ZenityRs

